import Mathlib

/-!
Shallow embedding of `src/table.rs` of the `toml` repository: the
format-preserving TOML document model (`Table`, `Item`, the key/value
slot type `TableKeyValue`) and its query/mutation contract.

The ordered map `LinkedHashMap<InternalString, TableKeyValue>` is
embedded as an association list `List (String × TableKeyValue)` kept in
insertion order with unique keys (new keys are appended at the back,
exactly the behaviour of `LinkedHashMap::entry().or_insert`).

Collaborator code that is not under `src/` (the key tokenizer `key.rs`,
the scalar subsystem `value.rs` including `sort_key_value_pairs`, and
the decoration helpers of `formatted.rs`) is modelled from the spec;
each such definition carries a doc comment starting with
`Modelled from the spec:`.
-/

set_option autoImplicit false

namespace TomlEdit

/-- Decor: comments/whitespace before and after a node (`decor.rs` field
pair; only its presence matters to the claims). -/
structure Decor where
  leading : String
  trailing : String
deriving Repr, DecidableEq

def Decor.new (l t : String) : Decor := ⟨l, t⟩

/-- Modelled from the spec: the scalar-value subsystem (`value.rs` is
absent from src/). A `Value` is a scalar-or-compound value: integer,
float, bool, string, datetime, array, inline table. The float payload is
abstracted as its raw bit pattern and the datetime as its text, since no
claim inspects them; value-level decoration is not represented. -/
inductive Value : Type where
  | integer : Int → Value
  | float : Nat → Value
  | bool : Bool → Value
  | str : String → Value
  | dateTime : String → Value
  | array : List Value → Value
  | inlineTable : List (String × Value) → Value

mutual
/-- `enum Item { None, Value(Value), Table(Table), ArrayOfTables(ArrayOfTables) }` -/
inductive Item : Type where
  | none : Item
  | value : Value → Item
  | table : Table → Item
  | arrayOfTables : ArrayOfTables → Item

/-- `struct TableKeyValue { key: Repr, value: Item }`; the key `Repr` is
embedded as the raw key text it preserves. -/
inductive TableKeyValue : Type where
  | mk : String → Item → TableKeyValue

/-- `struct Table { items: KeyValuePairs, decor: Decor, implicit: bool }` -/
inductive Table : Type where
  | mk : List (String × TableKeyValue) → Decor → Bool → Table

/-- `ArrayOfTables`: an ordered sequence of Tables sharing one key. -/
inductive ArrayOfTables : Type where
  | mk : List Table → ArrayOfTables
end

def TableKeyValue.key : TableKeyValue → String
  | .mk k _ => k

def TableKeyValue.value : TableKeyValue → Item
  | .mk _ v => v

def Table.items : Table → List (String × TableKeyValue)
  | .mk i _ _ => i

def Table.decor : Table → Decor
  | .mk _ d _ => d

def Table.implicit : Table → Bool
  | .mk _ _ b => b

/-- `Table::with_decor` -/
def Table.with_decor (d : Decor) : Table := Table.mk [] d false

/-- `Table::new`: empty table, decor `("\n", "")`, not implicit. -/
def Table.new : Table := Table.with_decor (Decor.new "\n" "")

/-- `Table::set_implicit` -/
def Table.set_implicit (t : Table) (b : Bool) : Table :=
  Table.mk t.items t.decor b

/- Item variant tests and structural downcasts (`impl Item`, the
`Downcasting` block of `table.rs`). -/

def Item.as_value : Item → Option Value
  | .value v => some v
  | _ => Option.none

def Item.as_table : Item → Option Table
  | .table t => some t
  | _ => Option.none

def Item.as_array_of_tables : Item → Option ArrayOfTables
  | .arrayOfTables a => some a
  | _ => Option.none

def Item.is_value (i : Item) : Bool := i.as_value.isSome

def Item.is_table (i : Item) : Bool := i.as_table.isSome

def Item.is_array_of_tables (i : Item) : Bool := i.as_array_of_tables.isSome

def Item.is_none : Item → Bool
  | .none => true
  | _ => false

/-- `Item::or_insert`: `if self.is_none() { *self = item } self`; the
returned value is the state of the slot the handle points to. -/
def Item.or_insert (self item : Item) : Item :=
  if self.is_none then item else self

/-- Modelled from the spec: `Value` downcasting (`value.rs` absent from
src/); each accessor returns the payload iff the value is of exactly the
requested scalar kind. -/
def Value.as_integer : Value → Option Int
  | .integer i => some i
  | _ => Option.none

def Value.as_float : Value → Option Nat
  | .float f => some f
  | _ => Option.none

def Value.as_bool : Value → Option Bool
  | .bool b => some b
  | _ => Option.none

def Value.as_str : Value → Option String
  | .str s => some s
  | _ => Option.none

def Value.as_date_time : Value → Option String
  | .dateTime d => some d
  | _ => Option.none

def Value.as_array : Value → Option (List Value)
  | .array xs => some xs
  | _ => Option.none

def Value.as_inline_table : Value → Option (List (String × Value))
  | .inlineTable xs => some xs
  | _ => Option.none

/- The convenience scalar downcasts of `Item` delegate through
`as_value` into the scalar subsystem (`// Duplicate Value downcasting API`). -/

def Item.as_integer (i : Item) : Option Int := i.as_value.bind Value.as_integer

def Item.is_integer (i : Item) : Bool := i.as_integer.isSome

def Item.as_float (i : Item) : Option Nat := i.as_value.bind Value.as_float

def Item.is_float (i : Item) : Bool := i.as_float.isSome

def Item.as_bool (i : Item) : Option Bool := i.as_value.bind Value.as_bool

def Item.is_bool (i : Item) : Bool := i.as_bool.isSome

def Item.as_str (i : Item) : Option String := i.as_value.bind Value.as_str

def Item.is_str (i : Item) : Bool := i.as_str.isSome

def Item.as_date_time (i : Item) : Option String := i.as_value.bind Value.as_date_time

def Item.is_date_time (i : Item) : Bool := i.as_date_time.isSome

def Item.as_array (i : Item) : Option (List Value) := i.as_value.bind Value.as_array

def Item.is_array (i : Item) : Bool := i.as_array.isSome

def Item.as_inline_table (i : Item) : Option (List (String × Value)) :=
  i.as_value.bind Value.as_inline_table

def Item.is_inline_table (i : Item) : Bool := i.as_inline_table.isSome

/- The key tokenizer. -/

/-- A parsed key: `get` is the normalized (unquoted/unescaped) text,
`raw` the original textual representation. -/
structure Key where
  get : String
  raw : String
deriving Repr, DecidableEq

def isBareKeyChar (c : Char) : Bool :=
  c.isAlphanum || c = '-' || c = '_'

/-- Modelled from the spec: the key tokenizer (`key.rs` is absent from
src/). Per the spec, `entry` fails iff its argument cannot be parsed as
a valid key token, and keys preserve their quoting style: a bare key
(alphanumerics, `-`, `_`) parses to itself, a basic-quoted key
`"..."` (no escapes or inner quotes in this model) parses to its
unquoted content while keeping the quoted raw text. -/
def parseKey (s : String) : Option Key :=
  let cs := s.toList
  if cs ≠ [] ∧ cs.all isBareKeyChar then
    some ⟨s, s⟩
  else
    match cs with
    | '"' :: rest =>
      if rest ≠ [] ∧ rest.getLast? = some '"' ∧
          rest.dropLast.all (fun c => c ≠ '"' ∧ c ≠ '\\') then
        some ⟨String.mk rest.dropLast, s⟩
      else
        Option.none
    | _ => Option.none

/-- Modelled from the spec: `key_repr` (`formatted.rs` absent from src/)
wraps the raw key text into its stored representation; decoration is not
represented, so it is the raw text itself. -/
def key_repr (raw : String) : String := raw

/- Association-list primitives mirroring the `LinkedHashMap` operations
used by `table.rs`. -/

/-- `LinkedHashMap::get`: first (and, under key uniqueness, only) slot
stored under `k`. -/
def findKV : List (String × TableKeyValue) → String → Option TableKeyValue
  | [], _ => Option.none
  | (k', kv) :: rest, k => if k' = k then some kv else findKV rest k

/-- `LinkedHashMap::entry(k).or_insert(kv)` effect on the map: if a slot
for `k` exists the map is unchanged, otherwise the new slot is appended
at the back of the iteration order. -/
def insertEntry (items : List (String × TableKeyValue)) (k : String)
    (kv : TableKeyValue) : List (String × TableKeyValue) :=
  if (findKV items k).isSome then items else items ++ [(k, kv)]

/-- `LinkedHashMap::remove`: delete the slot for `k`, returning it. -/
def removeKV : List (String × TableKeyValue) → String →
    Option TableKeyValue × List (String × TableKeyValue)
  | [], _ => (Option.none, [])
  | (k', kv) :: rest, k =>
    if k' = k then (some kv, rest)
    else
      let r := removeKV rest k
      (r.1, (k', kv) :: r.2)

/-- Overwrite the Item of the existing slot for `k`, keeping its key
representation and position (writing through the handle `entry` returns). -/
def setKV : List (String × TableKeyValue) → String → Item →
    List (String × TableKeyValue)
  | [], _, _ => []
  | (k', kv) :: rest, k, v =>
    if k' = k then (k', TableKeyValue.mk kv.key v) :: rest
    else (k', kv) :: setKV rest k v

/- The Table query/mutation contract of `table.rs`. -/

/-- `Table::get`: `self.items.get(key).map(|kv| &kv.value)` — verbatim
lookup, no key parsing. -/
def Table.get (t : Table) (k : String) : Option Item :=
  (findKV t.items k).map TableKeyValue.value

/-- `Table::contains_key`: a slot exists for `key` and its Item is not
`Item::None`. -/
def Table.contains_key (t : Table) (k : String) : Bool :=
  match findKV t.items k with
  | some kv => !kv.value.is_none
  | Option.none => false

/-- `Table::contains_table` -/
def Table.contains_table (t : Table) (k : String) : Bool :=
  match findKV t.items k with
  | some kv => kv.value.is_table
  | Option.none => false

/-- `Table::contains_value` -/
def Table.contains_value (t : Table) (k : String) : Bool :=
  match findKV t.items k with
  | some kv => kv.value.is_value
  | Option.none => false

/-- `Table::contains_array_of_tables` -/
def Table.contains_array_of_tables (t : Table) (k : String) : Bool :=
  match findKV t.items k with
  | some kv => kv.value.is_array_of_tables
  | Option.none => false

/-- `Table::iter`: the sequence of `(&key[..], &kv.value)` pairs in
current insertion order (the map key, i.e. the normalized key text). -/
def Table.iterList (t : Table) : List (String × Item) :=
  t.items.map (fun kv => (kv.1, kv.2.value))

/-- `Table::remove`: `self.items.remove(key).map(|kv| kv.value)`,
returning the removed Item (if a slot existed) and the table afterwards. -/
def Table.remove (t : Table) (k : String) : Option Item × Table :=
  let r := removeKV t.items k
  (r.1.map TableKeyValue.value, Table.mk r.2 t.decor t.implicit)

/-- `Table::len`: number of slots whose Item is not `Item::None`. -/
def Table.len (t : Table) : Nat :=
  (t.items.filter (fun i => !i.2.value.is_none)).length

/-- `Table::values_len`: number of slots whose Item is `Item::Value`. -/
def Table.values_len (t : Table) : Nat :=
  (t.items.filter (fun i => i.2.value.is_value)).length

/-- `Table::is_empty` -/
def Table.is_empty (t : Table) : Bool := t.len == 0

/-- `Table::entry`, effect on the table: parse the key (`expect`ing it
valid — a parse failure is the hard failure, embedded as `Option.none`),
then `items.entry(parsed.get()).or_insert(TableKeyValue::new(key_repr(parsed.raw()), Item::None))`. -/
def Table.entry (t : Table) (k : String) : Option Table :=
  match parseKey k with
  | Option.none => Option.none
  | some pk =>
    some (Table.mk
      (insertEntry t.items pk.get (TableKeyValue.mk (key_repr pk.raw) Item.none))
      t.decor t.implicit)

/-- The Item the mutable handle returned by `Table::entry` points to
(after the entry call, before any further write). -/
def Table.entryItem (t : Table) (k : String) : Option Item :=
  match parseKey k with
  | Option.none => Option.none
  | some pk =>
    match findKV t.items pk.get with
    | some kv => some kv.value
    | Option.none => some Item.none

/-- Writing `v` through the handle returned by `Table::entry`: the slot
(created if needed) for the parsed form of `k` has its Item set to `v`;
key text and position are untouched. -/
def Table.entrySet (t : Table) (k : String) (v : Item) : Option Table :=
  match parseKey k with
  | Option.none => Option.none
  | some pk =>
    some (Table.mk
      (setKV
        (insertEntry t.items pk.get (TableKeyValue.mk (key_repr pk.raw) Item.none))
        pk.get v)
      t.decor t.implicit)

/-- Stable insertion of a pair into a key-sorted pair list: the new pair
goes before the first strictly greater key and before equal keys it is
inserted ahead of, keeping the original relative order of equals. -/
def insertSorted (p : String × TableKeyValue) :
    List (String × TableKeyValue) → List (String × TableKeyValue)
  | [] => [p]
  | q :: rest => if p.1 ≤ q.1 then p :: q :: rest else q :: insertSorted p rest

/-- Modelled from the spec: `sort_key_value_pairs` (`value.rs` absent
from src/) stably sorts the direct key/value slots by key, ascending,
moving each slot whole (key text and Item untouched). -/
def sort_key_value_pairs : List (String × TableKeyValue) →
    List (String × TableKeyValue)
  | [] => []
  | p :: rest => insertSorted p (sort_key_value_pairs rest)

/-- `Table::sort_values`: sorts this table's direct key/value pairs,
not affecting subtables or subarrays. -/
def Table.sort_values (t : Table) : Table :=
  Table.mk (sort_key_value_pairs t.items) t.decor t.implicit

/-- Well-formedness maintained by `LinkedHashMap`: map keys are unique. -/
def Table.WF (t : Table) : Prop := (t.items.map Prod.fst).Nodup

/-- The key ordering `sort_values` sorts by. -/
def keyLe (a b : String × TableKeyValue) : Prop := a.1 ≤ b.1

instance : DecidableRel keyLe :=
  fun a b => inferInstanceAs (Decidable (a.1 ≤ b.1))

instance : IsTotal (String × TableKeyValue) keyLe :=
  ⟨fun a b => le_total a.1 b.1⟩

instance : IsTrans (String × TableKeyValue) keyLe :=
  ⟨fun _ _ _ h1 h2 => le_trans h1 h2⟩

/-- Modelled from the spec: the free constructor `value(v)` wraps a raw
scalar into an `Item::Value` (its `decorated` wrapper from
`formatted.rs` attaches decoration, which this model of the scalar
subsystem does not represent). -/
def value (v : Value) : Item := Item.value v

/-- Free constructor `table()`: an empty `Item::Table`. -/
def table : Item := Item.table Table.new

/-- Free constructor `array()`: an empty `Item::ArrayOfTables`. -/
def array : Item := Item.arrayOfTables (ArrayOfTables.mk [])

/-- The three-slot table of the `len` vs `values_len` spec scenario: one
probed-but-unset slot, one scalar-value slot, one nested-table slot,
built through the public mutation contract. -/
def c2Table : Option Table :=
  (((Table.new).entry "ghost").bind
    (fun t1 => t1.entrySet "x" (value (Value.integer 1)))).bind
    (fun t2 => t2.entrySet "sub" table)

/-- A one-slot table holding a scalar under key `a`, used as concrete
input for removal. -/
def c3Table : Table :=
  Table.mk [("a", TableKeyValue.mk "a" (Item.value (Value.bool true)))]
    (Decor.new "\n" "") false

/-- The table produced by probing key `a` of an empty table. -/
def ghostTable : Table :=
  Table.mk [("a", TableKeyValue.mk "a" Item.none)] (Decor.new "\n" "") false

/- Helper lemmas about the accessors and association-list primitives. -/

@[simp] theorem items_mk (l : List (String × TableKeyValue)) (d : Decor) (b : Bool) :
    (Table.mk l d b).items = l := rfl

@[simp] theorem decor_mk (l : List (String × TableKeyValue)) (d : Decor) (b : Bool) :
    (Table.mk l d b).decor = d := rfl

@[simp] theorem implicit_mk (l : List (String × TableKeyValue)) (d : Decor) (b : Bool) :
    (Table.mk l d b).implicit = b := rfl

@[simp] theorem key_mk (k : String) (v : Item) : (TableKeyValue.mk k v).key = k := rfl

@[simp] theorem value_mk (k : String) (v : Item) : (TableKeyValue.mk k v).value = v := rfl

theorem findKV_eq_none_of_not_mem (l : List (String × TableKeyValue)) (k : String)
    (h : k ∉ l.map Prod.fst) : findKV l k = Option.none := by
  induction l with
  | nil => rfl
  | cons p rest ih =>
    obtain ⟨k1, kv1⟩ := p
    simp only [List.map_cons, List.mem_cons] at h
    push_neg at h
    have hne : ¬ k1 = k := fun he => h.1 he.symm
    simp only [findKV, if_neg hne]
    exact ih h.2

theorem findKV_append (l1 l2 : List (String × TableKeyValue)) (k : String)
    (h : findKV l1 k = Option.none) : findKV (l1 ++ l2) k = findKV l2 k := by
  induction l1 with
  | nil => rfl
  | cons p rest ih =>
    obtain ⟨k1, kv1⟩ := p
    by_cases he : k1 = k
    · simp only [findKV, if_pos he] at h
      exact absurd h (by simp)
    · simp only [findKV, if_neg he] at h
      simpa only [List.cons_append, findKV, if_neg he] using ih h

theorem removeKV_not_found (l : List (String × TableKeyValue)) (k : String)
    (h : findKV l k = Option.none) : removeKV l k = (Option.none, l) := by
  induction l with
  | nil => rfl
  | cons p rest ih =>
    obtain ⟨k1, kv1⟩ := p
    by_cases he : k1 = k
    · simp only [findKV, if_pos he] at h
      exact absurd h (by simp)
    · simp only [findKV, if_neg he] at h
      simp only [removeKV, if_neg he, ih h]

theorem removeKV_append_not_found (l1 l2 : List (String × TableKeyValue)) (k : String)
    (h : findKV l1 k = Option.none) :
    removeKV (l1 ++ l2) k = ((removeKV l2 k).1, l1 ++ (removeKV l2 k).2) := by
  induction l1 with
  | nil => rfl
  | cons p rest ih =>
    obtain ⟨k1, kv1⟩ := p
    by_cases he : k1 = k
    · simp only [findKV, if_pos he] at h
      exact absurd h (by simp)
    · simp only [findKV, if_neg he] at h
      simp only [List.cons_append, removeKV, if_neg he, List.append_eq, ih h]

theorem removeKV_found (l : List (String × TableKeyValue)) (k : String)
    (kv : TableKeyValue) (hnd : (l.map Prod.fst).Nodup)
    (h : findKV l k = some kv) :
    (removeKV l k).1 = some kv ∧ findKV (removeKV l k).2 k = Option.none := by
  induction l with
  | nil => exact absurd h (by simp [findKV])
  | cons p rest ih =>
    obtain ⟨k1, kv1⟩ := p
    simp only [List.map_cons, List.nodup_cons] at hnd
    by_cases he : k1 = k
    · simp only [findKV, if_pos he, Option.some.injEq] at h
      subst h
      refine ⟨by simp [removeKV, if_pos he], ?_⟩
      simp only [removeKV, if_pos he]
      exact findKV_eq_none_of_not_mem rest k (fun hm => hnd.1 (he ▸ hm))
    · simp only [findKV, if_neg he] at h
      obtain ⟨ih1, ih2⟩ := ih hnd.2 h
      refine ⟨by simp only [removeKV, if_neg he]; exact ih1, ?_⟩
      simp only [removeKV, if_neg he, findKV]
      exact ih2

theorem insertEntry_found (l : List (String × TableKeyValue)) (k : String)
    (kv : TableKeyValue) (h : (findKV l k).isSome = true) :
    insertEntry l k kv = l := by
  simp only [insertEntry, if_pos h]

theorem insertEntry_not_found (l : List (String × TableKeyValue)) (k : String)
    (kv : TableKeyValue) (h : findKV l k = Option.none) :
    insertEntry l k kv = l ++ [(k, kv)] := by
  simp only [insertEntry, h, Option.isSome_none, Bool.false_eq_true, if_false]

theorem findKV_singleton_self (k : String) (kv : TableKeyValue) :
    findKV [(k, kv)] k = some kv := by
  simp [findKV]

theorem get_eq_none_iff (t : Table) (k : String) :
    t.get k = Option.none ↔ findKV t.items k = Option.none := by
  simp [Table.get]

theorem insertSorted_eq_orderedInsert (p : String × TableKeyValue)
    (l : List (String × TableKeyValue)) :
    insertSorted p l = List.orderedInsert keyLe p l := by
  induction l with
  | nil => rfl
  | cons q rest ih =>
    simp only [insertSorted, List.orderedInsert, ih]
    rfl

theorem sort_eq_insertionSort (l : List (String × TableKeyValue)) :
    sort_key_value_pairs l = List.insertionSort keyLe l := by
  induction l with
  | nil => rfl
  | cons p rest ih =>
    simp only [sort_key_value_pairs, List.insertionSort, ih,
      insertSorted_eq_orderedInsert]

/-- C1, counterexample: for the quoted key `"a"` (raw text includes the
quotes), `entry` succeeds and stores the slot under the parsed text `a`,
so a verbatim `get` with the raw key returns `none`, not
`some Item.none` as the claim states for every key. -/
theorem C1_counterexample :
    ((Table.new).entry "\"a\"").isSome = true ∧
    ((Table.new).entry "\"a\"").bind (fun t => t.get "\"a\"") = Option.none ∧
    ¬ ((Table.new).entry "\"a\"").bind (fun t => t.get "\"a\"") = some Item.none := by
  have hnone : ((Table.new).entry "\"a\"").bind (fun t => t.get "\"a\"") = Option.none := rfl
  exact ⟨rfl, hnone, fun h => Option.noConfusion (hnone.symm.trans h)⟩

/-- C1 (amended): for every table `T` and parseable key `k` with no slot
for `k` nor for its parsed form: after `T.entry(k)` with no further
write, `T.contains_key(k)` is `false`, and `T.get` applied to the parsed
form of `k` returns `some Item.none`; when the parsed form equals `k`
(e.g. bare keys) this is `T.get(k)` itself. -/
theorem C1_amended (t : Table) (k : String) (pk : Key)
    (hp : parseKey k = some pk)
    (h1 : t.get k = Option.none) (h2 : t.get pk.get = Option.none) :
    ∃ t', t.entry k = some t' ∧ t'.contains_key k = false ∧
      t'.get pk.get = some Item.none ∧
      (pk.get = k → t'.get k = some Item.none) := by
  have hf1 : findKV t.items k = Option.none := (get_eq_none_iff t k).1 h1
  have hf2 : findKV t.items pk.get = Option.none := (get_eq_none_iff t pk.get).1 h2
  have hfg : findKV
      (t.items ++ [(pk.get, TableKeyValue.mk (key_repr pk.raw) Item.none)]) pk.get
      = some (TableKeyValue.mk (key_repr pk.raw) Item.none) := by
    rw [findKV_append _ _ _ hf2]
    exact findKV_singleton_self _ _
  refine ⟨Table.mk
      (t.items ++ [(pk.get, TableKeyValue.mk (key_repr pk.raw) Item.none)])
      t.decor t.implicit, ?_, ?_, ?_, ?_⟩
  · simp only [Table.entry, hp]
    rw [insertEntry_not_found _ _ _ hf2]
  · by_cases hk : pk.get = k
    · subst hk
      simp [Table.contains_key, hfg, Item.is_none]
    · have hfk : findKV
          (t.items ++ [(pk.get, TableKeyValue.mk (key_repr pk.raw) Item.none)]) k
          = Option.none := by
        rw [findKV_append _ _ _ hf1]
        simp [findKV, hk]
      simp [Table.contains_key, hfk]
  · simp [Table.get, hfg]
  · intro hk
    subst hk
    simp [Table.get, hfg]

/-- C1 (amended), witness at the empty table and the bare key `a`. -/
theorem C1_amended_witness :
    ∃ t', (Table.new).entry "a" = some t' ∧ t'.contains_key "a" = false ∧
      t'.get "a" = some Item.none ∧
      ("a" = "a" → t'.get "a" = some Item.none) :=
  C1_amended Table.new "a" (Key.mk "a" "a") rfl rfl rfl

/-- C2: `len()` counts exactly the slots whose Item is not the absent
variant and `values_len()` exactly those whose Item is the Value
variant; for the concrete table with one probed-but-unset slot, one
scalar-value slot and one nested-table slot, `len = 2` and
`values_len = 1`. -/
theorem C2_len_values_len :
    (∀ t : Table,
      t.len = (t.iterList.filter (fun p => !p.2.is_none)).length ∧
      t.values_len = (t.iterList.filter (fun p => p.2.is_value)).length) ∧
    c2Table.map Table.len = some 2 ∧ c2Table.map Table.values_len = some 1 := by
  refine ⟨fun t => ⟨?_, ?_⟩, rfl, rfl⟩
  · simp only [Table.len, Table.iterList, List.filter_map, List.length_map]
    rfl
  · simp only [Table.values_len, Table.iterList, List.filter_map, List.length_map]
    rfl

/-- C4: `entry(k)` signals the hard key-syntax failure exactly when `k`
cannot be parsed as a valid key token, and succeeds on every key that
does parse. -/
theorem C4_entry_key_syntax (t : Table) (k : String) :
    (t.entry k).isSome = (parseKey k).isSome := by
  cases hp : parseKey k <;> simp [Table.entry, hp]

/-- C5: each convenience scalar downcast of `Item` succeeds exactly when
the Item is the Value variant and the value is of the requested scalar
kind; in particular an `Item::Table` never reports `is_array`. -/
theorem C5_downcasts :
    (∀ i : Item, i.is_integer = true ↔ ∃ v, i = Item.value v ∧ v.as_integer.isSome = true) ∧
    (∀ i : Item, i.is_float = true ↔ ∃ v, i = Item.value v ∧ v.as_float.isSome = true) ∧
    (∀ i : Item, i.is_bool = true ↔ ∃ v, i = Item.value v ∧ v.as_bool.isSome = true) ∧
    (∀ i : Item, i.is_str = true ↔ ∃ v, i = Item.value v ∧ v.as_str.isSome = true) ∧
    (∀ i : Item, i.is_date_time = true ↔ ∃ v, i = Item.value v ∧ v.as_date_time.isSome = true) ∧
    (∀ i : Item, i.is_array = true ↔ ∃ v, i = Item.value v ∧ v.as_array.isSome = true) ∧
    (∀ i : Item, i.is_inline_table = true ↔ ∃ v, i = Item.value v ∧ v.as_inline_table.isSome = true) ∧
    (∀ t : Table, (Item.table t).is_array = false) ∧
    (∀ a : ArrayOfTables, (Item.arrayOfTables a).is_array = false) := by
  refine ⟨?_, ?_, ?_, ?_, ?_, ?_, ?_, fun t => rfl, fun a => rfl⟩ <;>
  · intro i
    cases i <;>
      simp [Item.is_integer, Item.as_integer, Item.is_float, Item.as_float,
        Item.is_bool, Item.as_bool, Item.is_str, Item.as_str,
        Item.is_date_time, Item.as_date_time, Item.is_array, Item.as_array,
        Item.is_inline_table, Item.as_inline_table, Item.as_value]

/-- C6: `or_insert` on an absent Item installs and returns the argument;
on a non-absent Item it leaves the stored Item in place and returns it
unchanged. -/
theorem C6_or_insert :
    (∀ x : Item, (Item.none).or_insert x = x) ∧
    (∀ y x : Item, y.is_none = false → y.or_insert x = y) := by
  constructor
  · intro x
    rfl
  · intro y x h
    simp [Item.or_insert, h]

/-- C6, witness: a Value-holding Item is kept unchanged by `or_insert`. -/
theorem C6_or_insert_witness :
    (Item.value (Value.bool true)).is_none = false ∧
    (Item.value (Value.bool true)).or_insert Item.none = Item.value (Value.bool true) :=
  ⟨rfl, C6_or_insert.2 (Item.value (Value.bool true)) Item.none rfl⟩

/-- C3: on a table with unique map keys, `remove(k)` of an existing slot
returns the Item previously stored there and afterwards `get(k)` is
`none` (the slot is deleted whole); on a missing key it returns `none`
and leaves the table unchanged. -/
theorem C3_remove (t : Table) (k : String) (hwf : t.WF) :
    (∀ kv, findKV t.items k = some kv →
      (t.remove k).1 = some kv.value ∧ (t.remove k).2.get k = Option.none) ∧
    (findKV t.items k = Option.none → t.remove k = (Option.none, t)) := by
  constructor
  · intro kv h
    obtain ⟨h1, h2⟩ := removeKV_found t.items k kv hwf h
    constructor
    · simp [Table.remove, h1]
    · simp [Table.get, Table.remove, h2]
  · intro h
    have hr := removeKV_not_found t.items k h
    cases t with
    | mk items d b =>
      simp only [items_mk] at hr
      simp [Table.remove, hr]

/-- C3, witness: removing the only slot of a one-slot table returns its
Item and leaves a table in which the key resolves to nothing. -/
theorem C3_remove_witness :
    (c3Table.remove "a").1 = some (Item.value (Value.bool true)) ∧
    (c3Table.remove "a").2.get "a" = Option.none :=
  (C3_remove c3Table "a" (by simp [Table.WF, c3Table])).1
    (TableKeyValue.mk "a" (Item.value (Value.bool true))) rfl

/-- C7: probing the same key twice without intervening writes is
idempotent: the second `entry` call returns the very same table (same
slot set, same iteration order, no duplicate slot), `len` is unaffected
by the probe, and the handle resolves to the same slot content both
times. -/
theorem C7_entry_idempotent (t t' : Table) (k : String)
    (h : t.entry k = some t') :
    t'.entry k = some t' ∧ t'.len = t.len ∧ t'.entryItem k = t.entryItem k := by
  cases hp : parseKey k with
  | none =>
    simp only [Table.entry, hp] at h
    exact Option.noConfusion h
  | some pk =>
    simp only [Table.entry, hp, Option.some.injEq] at h
    subst h
    by_cases hf : (findKV t.items pk.get).isSome
    · rw [insertEntry_found _ _ _ hf]
      refine ⟨?_, rfl, rfl⟩
      simp only [Table.entry, hp, items_mk, decor_mk, implicit_mk]
      rw [insertEntry_found _ _ _ hf]
    · have hfn : findKV t.items pk.get = Option.none := by
        cases hq : findKV t.items pk.get
        · rfl
        · rw [hq] at hf
          simp at hf
      rw [insertEntry_not_found _ _ _ hfn]
      have hfind : findKV
          (t.items ++ [(pk.get, TableKeyValue.mk (key_repr pk.raw) Item.none)]) pk.get
          = some (TableKeyValue.mk (key_repr pk.raw) Item.none) := by
        rw [findKV_append _ _ _ hfn]
        exact findKV_singleton_self _ _
      refine ⟨?_, ?_, ?_⟩
      · simp only [Table.entry, hp, items_mk, decor_mk, implicit_mk]
        rw [insertEntry_found _ _ _ (by rw [hfind]; rfl)]
      · simp [Table.len, List.filter_append, Item.is_none]
      · simp [Table.entryItem, hp, hfind, hfn]

/-- C7, witness: probing key `a` of the empty table and probing it again. -/
theorem C7_entry_idempotent_witness :
    ghostTable.entry "a" = some ghostTable ∧ ghostTable.len = (Table.new).len ∧
    ghostTable.entryItem "a" = (Table.new).entryItem "a" :=
  C7_entry_idempotent Table.new ghostTable "a" rfl

/-- C8: `sort_values` permutes only the table's direct slots into
ascending key order (each slot moved whole, so every stored Item — and
the internal order of any nested table — is untouched), leaving decor
and the implicit flag unchanged. -/
theorem C8_sort_values (t : Table) :
    (t.sort_values).items.Perm t.items ∧
    (t.sort_values).items.Pairwise (fun a b => a.1 ≤ b.1) ∧
    (t.sort_values).decor = t.decor ∧
    (t.sort_values).implicit = t.implicit := by
  refine ⟨?_, ?_, rfl, rfl⟩
  · simp only [Table.sort_values, items_mk, sort_eq_insertionSort]
    exact List.perm_insertionSort _ _
  · simp only [Table.sort_values, items_mk, sort_eq_insertionSort]
    exact List.sorted_insertionSort keyLe _

/-- C9: `entry` stores the slot under the parsed key text while `get`,
the `contains_*` family and `remove` look their argument up verbatim:
for a key whose parsed form differs from its raw form, the slot created
by `entry(k)` is found under the parsed text but not under `k` itself. -/
theorem C9_entry_normalizes (t : Table) (k : String) (pk : Key)
    (hp : parseKey k = some pk) (hne : pk.get ≠ k)
    (h1 : t.get k = Option.none) (h2 : t.get pk.get = Option.none) :
    ∃ t', t.entry k = some t' ∧
      t'.get pk.get = some Item.none ∧
      t'.get k = Option.none ∧
      t'.contains_key k = false ∧
      t'.contains_table k = false ∧
      t'.contains_value k = false ∧
      t'.contains_array_of_tables k = false ∧
      (t'.remove k).1 = Option.none := by
  have hf1 : findKV t.items k = Option.none := (get_eq_none_iff t k).1 h1
  have hf2 : findKV t.items pk.get = Option.none := (get_eq_none_iff t pk.get).1 h2
  have hfg : findKV
      (t.items ++ [(pk.get, TableKeyValue.mk (key_repr pk.raw) Item.none)]) pk.get
      = some (TableKeyValue.mk (key_repr pk.raw) Item.none) := by
    rw [findKV_append _ _ _ hf2]
    exact findKV_singleton_self _ _
  have hfk : findKV
      (t.items ++ [(pk.get, TableKeyValue.mk (key_repr pk.raw) Item.none)]) k
      = Option.none := by
    rw [findKV_append _ _ _ hf1]
    simp [findKV, hne]
  refine ⟨Table.mk
      (t.items ++ [(pk.get, TableKeyValue.mk (key_repr pk.raw) Item.none)])
      t.decor t.implicit, ?_, ?_, ?_, ?_, ?_, ?_, ?_, ?_⟩
  · simp only [Table.entry, hp]
    rw [insertEntry_not_found _ _ _ hf2]
  · simp [Table.get, hfg]
  · simp [Table.get, hfk]
  · simp [Table.contains_key, hfk]
  · simp [Table.contains_table, hfk]
  · simp [Table.contains_value, hfk]
  · simp [Table.contains_array_of_tables, hfk]
  · simp [Table.remove, removeKV_not_found _ _ hfk]

/-- C9, witness: the quoted key `"a"` on the empty table. -/
theorem C9_entry_normalizes_witness :
    ∃ t', (Table.new).entry "\"a\"" = some t' ∧
      t'.get "a" = some Item.none ∧
      t'.get "\"a\"" = Option.none ∧
      t'.contains_key "\"a\"" = false ∧
      t'.contains_table "\"a\"" = false ∧
      t'.contains_value "\"a\"" = false ∧
      t'.contains_array_of_tables "\"a\"" = false ∧
      (t'.remove "\"a\"").1 = Option.none :=
  C9_entry_normalizes Table.new "\"a\"" (Key.mk "a" "\"a\"") rfl
    (by decide) rfl rfl

/-- C10: for a slot created by `entry(k)` (with `k` parsing to itself)
and never written, `remove(k)` reports a successful removal, returning
`some Item.none`, even though `contains_key(k)` was `false` just before
the call. -/
theorem C10_remove_ghost (t t' : Table) (k : String) (pk : Key)
    (hp : parseKey k = some pk) (hk : pk.get = k)
    (h1 : t.get k = Option.none)
    (he : t.entry k = some t') :
    t'.contains_key k = false ∧ (t'.remove k).1 = some Item.none := by
  subst hk
  have hf1 : findKV t.items pk.get = Option.none := (get_eq_none_iff t pk.get).1 h1
  simp only [Table.entry, hp, Option.some.injEq] at he
  subst he
  rw [insertEntry_not_found _ _ _ hf1]
  have hfind : findKV
      (t.items ++ [(pk.get, TableKeyValue.mk (key_repr pk.raw) Item.none)]) pk.get
      = some (TableKeyValue.mk (key_repr pk.raw) Item.none) := by
    rw [findKV_append _ _ _ hf1]
    exact findKV_singleton_self _ _
  constructor
  · simp [Table.contains_key, hfind, Item.is_none]
  · have hr := removeKV_append_not_found t.items
      [(pk.get, TableKeyValue.mk (key_repr pk.raw) Item.none)] pk.get hf1
    simp [Table.remove, hr, removeKV]

/-- C10, witness: probe key `a` of the empty table, then remove it. -/
theorem C10_remove_ghost_witness :
    ghostTable.contains_key "a" = false ∧
    (ghostTable.remove "a").1 = some Item.none :=
  C10_remove_ghost Table.new ghostTable "a" (Key.mk "a" "a") rfl rfl rfl rfl

end TomlEdit
